import Mathlib

/-!
Verification of the cluster-routing core of `redis-rs`
(`src/redis/src/cluster_routing.rs`), shallowly embedded in Lean.

Conventions of the embedding:
* Byte strings (`&[u8]`, `Vec<u8>`) are `List Nat` with each entry the byte
  value.  All literals in this code base are ASCII.
* `u16`/`usize` values are `Nat` (slot numbers are reduced modulo 16384 by
  the hashing code itself; usize arithmetic that can wrap in the source is
  modelled by explicit checks, see `scatter`).
* `i64` is `Int`.  The repository's aggregation claims never approach the
  i64 range boundaries, so two's-complement wrap-around of sums (a panic in
  a debug build of the source) is not modelled.
* Fallible Rust code returning `RedisResult` becomes `Except RedisError _`.
  A Rust `panic` (a failed `assert_eq!`, an out-of-bounds index or a usize
  underflow) is not a `RedisResult` error; it is modelled by the
  distinguished outcome `RedisError.panicked`, so the theorems can
  distinguish typed errors from aborts.
-/

/-- ASCII bytes of a string literal (all literals used here are ASCII,
so `Char.toNat` is the byte value). -/
def bytes (s : String) : List Nat := s.toList.map Char.toNat

/-- `u8::to_ascii_uppercase` on one byte. -/
def toUpper (b : Nat) : Nat := if 97 ≤ b ∧ b ≤ 122 then b - 32 else b

/-- `Iterator::position` from Rust, used both for the hash-tag scan in
`get_hashtag` and for `Routable::position`. -/
def position (p : α → Bool) : List α → Option Nat
  | [] => none
  | x :: xs => if p x then some 0 else (position p xs).map (· + 1)

/-- Modelled from the spec: `crate::types::Value` is outside the excerpt.
Variants as used by this file for decoded response values (section 4.2 of
the spec: a generic decoded value doubles as a command when array-shaped). -/
inductive Value where
  | Nil
  | Int (i : Int)
  | Data (d : List Nat)
  | Bulk (items : List Value)
  | Status (s : String)
  | Okay

/-- Modelled from the spec: `RedisResult` error values live in
`crate::types`, outside the excerpt.  `typeError` is the
`ErrorKind::TypeError` shape raised by the aggregators; `panicked` marks a
Rust abort (failed assertion / out-of-bounds index), which is not a
`RedisResult` error in the source but must be distinguishable here. -/
inductive RedisError where
  | typeError (msg : String)
  | panicked

abbrev RedisResult (α : Type) := Except RedisError α

/-- `SLOT_SIZE` from the source. -/
def SLOT_SIZE : Nat := 16384

/-- One step of the XMODEM (CCITT) CRC-16: polynomial 0x1021, MSB first,
no reflection, as computed by `crc16::State::<crc16::XMODEM>`. -/
def crc16_update (crc b : Nat) : Nat :=
  let crc := (crc ^^^ (b <<< 8)) % 65536
  (List.range 8).foldl
    (fun c _ => if c &&& 32768 ≠ 0 then ((c <<< 1) ^^^ 4129) % 65536 else (c <<< 1) % 65536)
    crc

/-- `crc16::State::<crc16::XMODEM>::calculate` (initial state 0). -/
def crc16 (data : List Nat) : Nat := data.foldl crc16_update 0

/-- `fn slot(key) = crc16_xmodem(key) % SLOT_SIZE`. -/
def slot (key : List Nat) : Nat := crc16 key % SLOT_SIZE

/-- `SlotAddr` from the source. -/
inductive SlotAddr where
  | Master
  | Replica
deriving DecidableEq, Repr

/-- `Route(u16, SlotAddr)` from the source; the fields are named after the
source's accessors `slot()` and `slot_addr()`. -/
structure Route where
  slot : Nat
  slot_addr : SlotAddr
deriving DecidableEq, Repr

/-- `get_hashtag` from the source: the first `{`, then the first `}` at or
after it, and the (non-empty) bytes strictly between them.  `close` is an
offset into `key[open..]`, hence the `take (close - 1)` after dropping the
`{` itself. -/
def get_hashtag (key : List Nat) : Option (List Nat) :=
  match position (fun v => v == 123) key with
  | none => none
  | some opIdx =>
    match position (fun v => v == 125) (key.drop opIdx) with
    | none => none
    | some close =>
      let rv := (key.drop (opIdx + 1)).take (close - 1)
      if rv.isEmpty then none else some rv

/-- `get_slot` from the source: hash the hash-tag when present, else the
whole key. -/
def get_slot (key : List Nat) : Nat :=
  match get_hashtag key with
  | some tag => slot tag
  | none => slot key

/-- `get_route` from the source. -/
def get_route (is_readonly : Bool) (key : List Nat) : Route :=
  if is_readonly then ⟨get_slot key, .Replica⟩ else ⟨get_slot key, .Master⟩

/-- Modelled from the spec: the readonly-command classifier
`is_readonly_cmd` lives in `crate::commands`, which is not part of this
excerpt.  Spec section 4.3: the role is `Replica` exactly when the command
is classified read-only.  The entries listed are the ones evidenced by the
repository's own tests (`EXISTS`, `MGET`, `KEYS`, `XINFO *`, `XREAD` route
to `Replica`; `DEL`, `SET`, `MSET`, `EVAL`, `XREADGROUP`, `XGROUP *` to
`Master`); no theorem below depends on the classification of any other
command. -/
def is_readonly_cmd (cmd : List Nat) : Bool :=
  cmd ∈ [bytes "EXISTS", bytes "KEYS", bytes "MGET",
         bytes "XINFO CONSUMERS", bytes "XINFO GROUPS", bytes "XINFO STREAM",
         bytes "XREAD"]

/-- `LogicalAggregateOp` from the source (only `And` is constructed). -/
inductive LogicalAggregateOp where
  | And

/-- `AggregateOp` from the source. -/
inductive AggregateOp where
  | Min
  | Sum

/-- `RoutingInfo` and its component shapes from the source. -/
inductive SingleNodeRoutingInfo where
  | Random
  | SpecificNode (route : Route)
deriving DecidableEq, Repr

inductive MultipleNodeRoutingInfo where
  | AllNodes
  | AllMasters
  | MultiSlot (routes : List (Route × List Nat))
deriving DecidableEq, Repr

inductive RoutingInfo where
  | SingleNode (info : SingleNodeRoutingInfo)
  | MultiNode (info : MultipleNodeRoutingInfo)
deriving DecidableEq, Repr

/-- The fold body of `aggregate`: each partial must be `Value::Int`;
`Min` folds with `min`, `Sum` with `+`.  The Rust `fold` re-raises an
already-raised error on every later element, which is exactly the
short-circuit of this recursion. -/
def agg_fold (op : AggregateOp) (acc : Int) : List Value → RedisResult Int
  | [] => .ok acc
  | curr :: rest =>
    match curr with
    | .Int int =>
      agg_fold op (match op with | .Min => min acc int | .Sum => acc + int) rest
    | _ => .error (.typeError "expected array of integers as response")

/-- `aggregate` from the source: initial value `i64::MAX` for `Min`,
`0` for `Sum`. -/
def aggregate (values : List Value) (op : AggregateOp) : RedisResult Value :=
  let initial_value : Int := match op with | .Min => 9223372036854775807 | .Sum => 0
  (agg_fold op initial_value values).map .Int

/-- The inner `for (index, value) in values.into_iter().enumerate()` loop of
`logical_aggregate`: `acc[index] = acc[index] && (int > 0)`.  Writing
`acc[index]` with `index ≥ acc.len()` is a Rust index-out-of-bounds abort,
modelled as `panicked`. -/
def and_merge (op : LogicalAggregateOp) (acc : List Bool) (index : Nat) :
    List Value → RedisResult (List Bool)
  | [] => .ok acc
  | value :: rest =>
    match value with
    | .Int int =>
      if h : index < acc.length then
        and_merge op
          (acc.set index (match op with | .And => acc[index] && decide (0 < int)))
          (index + 1) rest
      else .error .panicked
    | _ => .error (.typeError "expected array of integers as response")

/-- The outer fold of `logical_aggregate`: each partial must be
`Value::Bulk`; an empty accumulator is (re)initialised to
`vec![initial_value; values.len()]` before merging. -/
def la_fold (op : LogicalAggregateOp) (acc : List Bool) :
    List Value → RedisResult (List Bool)
  | [] => .ok acc
  | curr :: rest =>
    match curr with
    | .Bulk values =>
      let initial_value := match op with | .And => true
      let acc := if acc.isEmpty then List.replicate values.length initial_value else acc
      match and_merge op acc 0 values with
      | .ok acc => la_fold op acc rest
      | .error e => .error e
    | _ => .error (.typeError "expected array of integers as response")

/-- `logical_aggregate` from the source; the final `result as i64` turns
each boolean into `0`/`1`. -/
def logical_aggregate (values : List Value) (op : LogicalAggregateOp) :
    RedisResult Value :=
  (la_fold op [] values).map
    (fun results => .Bulk (results.map (fun result => .Int (if result then 1 else 0))))

/-- The scatter loop of `combine_and_sort_array_results`:
`results[*index - 1] = value` over `key_indices.iter().zip(values)`.
`index = 0` underflows the usize subtraction and `index - 1 ≥ results.len()`
indexes out of bounds; both are Rust aborts, modelled as `panicked`. -/
def scatter (results : List Value) : List (Nat × Value) → RedisResult (List Value)
  | [] => .ok results
  | (index, value) :: rest =>
    if index = 0 then .error .panicked
    else if index - 1 < results.length then scatter (results.set (index - 1) value) rest
    else .error .panicked

/-- The outer loop of `combine_and_sort_array_results`: each partial must be
`Value::Bulk`, and `assert_eq!(values.len(), key_indices.len())` aborts on a
length mismatch before scattering that partial. -/
def cas_fold (results : List Value) :
    List (List Nat × Value) → RedisResult (List Value)
  | [] => .ok results
  | (key_indices, value) :: rest =>
    match value with
    | .Bulk values =>
      if values.length = key_indices.length then
        match scatter results (key_indices.zip values) with
        | .ok results => cas_fold results rest
        | .error e => .error e
      else .error .panicked
    | _ => .error (.typeError "expected array of values as response")

/-- `combine_and_sort_array_results` from the source.  Note that the result
buffer is resized to `values.len()` — the number of partial responses — and
that `assert_eq!(values.len(), sorting_order.len())` aborts on mismatch. -/
def combine_and_sort_array_results (values : List Value)
    (sorting_order : List (List Nat)) : RedisResult Value :=
  let results := List.replicate values.length Value.Nil
  if values.length = sorting_order.length then
    (cas_fold results (sorting_order.zip values)).map .Bulk
  else .error .panicked

/-- Follows the spec's words (section 4.6, ordered recombination), not the
source: scatter each partial's elements to position `original_index - 1` of
a result array sized to the original command's key count.  Used only to
exhibit how `combine_and_sort_array_results` diverges from the spec. -/
def spec_ordered_recombine (key_count : Nat)
    (parts : List (List Nat × List Value)) : List Value :=
  parts.foldl
    (fun results part =>
      (part.1.zip part.2).foldl (fun rs iv => rs.set (iv.1 - 1) iv.2) results)
    (List.replicate key_count Value.Nil)

/-!
Command introspection.  `Routable` is a trait with two implementations
(`Cmd` and array-shaped `Value`); both present a command as a sequence of
byte-string arguments accessed by `arg_idx`.  The embedding quantifies over
commands through that common shape.
-/

/-- A routable command: its sequence of byte-string arguments
(argument 0 is the verb). -/
abbrev Args := List (List Nat)

/-- `Routable::arg_idx`: the argument at position `idx`, when present. -/
def arg_idx (r : Args) (idx : Nat) : Option (List Nat) :=
  match r, idx with
  | [], _ => none
  | a :: _, 0 => some a
  | _ :: rest, idx + 1 => arg_idx rest idx

/-- The container verbs of `Routable::command` whose significant
subcommand is appended to form a compound name. -/
def containerVerbs : List (List Nat) :=
  [bytes "XGROUP", bytes "OBJECT", bytes "SLOWLOG", bytes "FUNCTION",
   bytes "MODULE", bytes "COMMAND", bytes "PUBSUB", bytes "CONFIG",
   bytes "MEMORY", bytes "XINFO", bytes "CLIENT", bytes "ACL",
   bytes "SCRIPT", bytes "CLUSTER", bytes "LATENCY"]

/-- `Routable::command` from the source: uppercase argument 0; for a
container verb, append a space and the uppercased argument 1 when present. -/
def command (r : Args) : Option (List Nat) :=
  match arg_idx r 0 with
  | none => none
  | some a0 =>
    let primary_command := a0.map toUpper
    if primary_command ∈ containerVerbs then
      match arg_idx r 1 with
      | some a1 => some (primary_command ++ [32] ++ a1.map toUpper)
      | none => some primary_command
    else some primary_command

/-- The insertion performed by `routes.entry(route).or_insert(Vec::new())`
followed by `keys.push(index)`: the `HashMap<Route, Vec<usize>>` is modelled
as an association list in first-insertion order.  The iteration order of the
Rust `HashMap` is unspecified; every property proved below about the
resulting plan (entry lookup, route count, index partition, per-route index
order) is insensitive to the order of entries. -/
def addIndex (routes : List (Route × List Nat)) (route : Route) (index : Nat) :
    List (Route × List Nat) :=
  match routes with
  | [] => [(route, [index])]
  | (r, keys) :: rest =>
    if r = route then (r, keys ++ [index]) :: rest
    else (r, keys) :: addIndex rest route index

/-- Lookup in the association list modelling the `HashMap`. -/
def findRoute (routes : List (Route × List Nat)) (route : Route) : Option (List Nat) :=
  match routes with
  | [] => none
  | (r, keys) :: rest => if r = route then some keys else findRoute rest route

/-- The `while let Some(key) = r.arg_idx(index)` loop of `multi_shard`,
rendered as structural recursion over the argument suffix starting at the
current index (for `Args`, `arg_idx` successively yields exactly that
suffix), with the running index carried explicitly.  With `has_values`, the
missing-value probe `r.arg_idx(index)?` short-circuits the whole function
to `None`. -/
def msLoop (is_readonly : Bool) (has_values : Bool) :
    List (List Nat) → Nat → List (Route × List Nat) → Option (List (Route × List Nat))
  | [], _, routes => some routes
  | key :: rest, index, routes =>
    let route := get_route is_readonly key
    let routes := addIndex routes route index
    if has_values then
      match rest with
      | [] => none
      | _ :: rest => msLoop is_readonly has_values rest (index + 2) (addIndex routes route (index + 1))
    else msLoop is_readonly has_values rest (index + 1) routes

/-- `multi_shard` from the source: scan the keys, then collapse a
single-route plan to `SingleNode(SpecificNode)` (Rust pops the only entry
of the one-element vector), anything else — including an empty plan — to
`MultiNode(MultiSlot)`. -/
def multi_shard (r : Args) (cmd : List Nat) (first_key_index : Nat)
    (has_values : Bool) : Option RoutingInfo :=
  match msLoop (is_readonly_cmd cmd) has_values (r.drop first_key_index) first_key_index [] with
  | none => none
  | some routes =>
    some (match routes with
      | [single] => .SingleNode (.SpecificNode single.1)
      | _ => .MultiNode (.MultiSlot routes))

/-- The composition `std::str::from_utf8(x).ok().and_then(|x| x.parse::<u64>().ok())`
applied to the `EVAL`/`EVALSHA` key-count argument: an optional `+` sign,
then one or more ASCII digits whose value fits in a `u64`; everything else
(including byte sequences that are not UTF-8, which fail the first stage)
yields `none`. -/
def parse_u64 (s : List Nat) : Option Nat :=
  let t := match s with | 43 :: rest => rest | _ => s
  if t ≠ [] ∧ t.all (fun b => 48 ≤ b ∧ b ≤ 57) then
    let v := t.foldl (fun acc b => acc * 10 + (b - 48)) 0
    if v < 18446744073709551616 then some v else none
  else none

/-- `RoutingInfo::for_key` from the source. -/
def RoutingInfo.for_key (cmd key : List Nat) : RoutingInfo :=
  .SingleNode (.SpecificNode (get_route (is_readonly_cmd cmd) key))

/-- The `AllMasters` command set of `RoutingInfo::for_routable`. -/
def allMastersCmds : List (List Nat) :=
  [bytes "RANDOMKEY", bytes "KEYS", bytes "SCRIPT EXISTS", bytes "WAIT",
   bytes "DBSIZE", bytes "FLUSHALL", bytes "FUNCTION RESTORE",
   bytes "FUNCTION DELETE", bytes "FUNCTION FLUSH", bytes "FUNCTION LOAD",
   bytes "PING", bytes "FLUSHDB", bytes "MEMORY PURGE", bytes "FUNCTION KILL",
   bytes "SCRIPT KILL", bytes "FUNCTION STATS", bytes "MEMORY MALLOC-STATS",
   bytes "MEMORY DOCTOR", bytes "MEMORY STATS", bytes "INFO"]

/-- The `AllNodes` command set of `RoutingInfo::for_routable`. -/
def allNodesCmds : List (List Nat) :=
  [bytes "SLOWLOG GET", bytes "SLOWLOG LEN", bytes "SLOWLOG RESET",
   bytes "CONFIG SET", bytes "SCRIPT FLUSH", bytes "SCRIPT LOAD",
   bytes "LATENCY RESET", bytes "LATENCY GRAPH", bytes "LATENCY HISTOGRAM",
   bytes "LATENCY HISTORY", bytes "LATENCY DOCTOR", bytes "LATENCY LATEST"]

/-- The administratively unroutable command set of
`RoutingInfo::for_routable`. -/
def unroutableCmds : List (List Nat) :=
  [bytes "SCAN", bytes "CLIENT SETNAME", bytes "SHUTDOWN", bytes "SLAVEOF",
   bytes "REPLICAOF", bytes "MOVE", bytes "BITOP"]

/-- The stream consumer-group / introspection command set routed by the key
at argument index 2. -/
def xgroupCmds : List (List Nat) :=
  [bytes "XGROUP CREATE", bytes "XGROUP CREATECONSUMER",
   bytes "XGROUP DELCONSUMER", bytes "XGROUP DESTROY", bytes "XGROUP SETID",
   bytes "XINFO CONSUMERS", bytes "XINFO GROUPS", bytes "XINFO STREAM"]

/-- `RoutingInfo::for_routable` from the source: the routing decision
table, keyed on the normalized command name. -/
def RoutingInfo.for_routable (r : Args) : Option RoutingInfo :=
  match command r with
  | none => none
  | some cmd =>
    if cmd ∈ allMastersCmds then some (.MultiNode .AllMasters)
    else if cmd ∈ allNodesCmds then some (.MultiNode .AllNodes)
    else if cmd ∈ [bytes "MGET", bytes "DEL", bytes "EXISTS", bytes "UNLINK", bytes "TOUCH"] then
      multi_shard r cmd 1 false
    else if cmd = bytes "MSET" then multi_shard r cmd 1 true
    else if cmd ∈ unroutableCmds then none
    else if cmd = bytes "EVALSHA" ∨ cmd = bytes "EVAL" then
      match (arg_idx r 2).bind parse_u64 with
      | none => none
      | some key_count =>
        if key_count = 0 then some (.SingleNode .Random)
        else (arg_idx r 3).map (fun key => RoutingInfo.for_key cmd key)
    else if cmd ∈ xgroupCmds then (arg_idx r 2).map (fun key => RoutingInfo.for_key cmd key)
    else if cmd = bytes "XREAD" ∨ cmd = bytes "XREADGROUP" then
      match position (fun a => a.map toUpper == bytes "STREAMS") r with
      | none => none
      | some streams_position =>
        (arg_idx r (streams_position + 1)).map (fun key => RoutingInfo.for_key cmd key)
    else
      match arg_idx r 1 with
      | some key => some (RoutingInfo.for_key cmd key)
      | none => some (.SingleNode .Random)

/-!
The slot map.  `SlotMap(BTreeMap<u16, SlotAddrs>)` is modelled as an
association list of `(end-boundary, SlotAddrs)` entries; the `BTreeMap`
invariant — keys strictly increasing in iteration order — is carried as an
explicit `Pairwise` hypothesis by the lookup theorem.  Under it,
`self.0.range(route.slot()..).next()` is the first entry in list order
whose key is at least the route's slot.
-/

/-- `SlotAddrs([String; 2])` from the source: the resolved
`(master, replica)` address pair; position 0 is the master, position 1 the
chosen replica (the master's own address when no replica is used). -/
structure SlotAddrs where
  master : String
  replica : String
deriving DecidableEq, Repr

/-- `SlotAddrs::slot_addr` from the source. -/
def SlotAddrs.slot_addr (s : SlotAddrs) : SlotAddr → String
  | .Master => s.master
  | .Replica => s.replica

/-- The `BTreeMap<u16, SlotAddrs>` inside `SlotMap`, as an association
list in key order. -/
abbrev SlotMap := List (Nat × SlotAddrs)

/-- `SlotMap::slot_addr_for_route` from the source:
`range(route.slot()..).next()`, then project the requested role. -/
def SlotMap.slot_addr_for_route (m : SlotMap) (route : Route) : Option String :=
  (m.find? (fun p => decide (route.slot ≤ p.1))).map
    (fun p => p.2.slot_addr route.slot_addr)

/-!
Theorems.  Each claim's theorem is marked with its claim id.
-/

/-- Claim C9: numeric aggregation over an empty list of partial responses
succeeds with the fold's initial value — `Int 0` for `Sum` and
`Int i64::MAX` for `Min`; no error is raised for zero partials. -/
theorem aggregate_empty_initial :
    aggregate [] .Sum = .ok (.Int 0) ∧
    aggregate [] .Min = .ok (.Int 9223372036854775807) :=
  ⟨rfl, rfl⟩

/-- Claim C10: every multi-key command (`DEL`/`EXISTS`/`UNLINK`/`TOUCH`/
`MGET`/`MSET`) consisting of the bare verb with zero key arguments routes
to `MultiNode(MultiSlot([]))` — an empty split plan — rather than `None`
or `SingleNode(Random)`. -/
theorem multi_key_zero_keys_empty_multislot :
    RoutingInfo.for_routable [bytes "DEL"] = some (.MultiNode (.MultiSlot [])) ∧
    RoutingInfo.for_routable [bytes "EXISTS"] = some (.MultiNode (.MultiSlot [])) ∧
    RoutingInfo.for_routable [bytes "UNLINK"] = some (.MultiNode (.MultiSlot [])) ∧
    RoutingInfo.for_routable [bytes "TOUCH"] = some (.MultiNode (.MultiSlot [])) ∧
    RoutingInfo.for_routable [bytes "MGET"] = some (.MultiNode (.MultiSlot [])) ∧
    RoutingInfo.for_routable [bytes "MSET"] = some (.MultiNode (.MultiSlot [])) :=
  ⟨rfl, rfl, rfl, rfl, rfl, rfl⟩

/-- Claim C1 (code bug): `combine_and_sort_array_results` resizes its result
buffer to `values.len()` — the number of partial responses — instead of the
original command's key count.  On the canonical three-keys-over-two-routes
split (`sorting_order = [[1,3],[2]]`, each partial's length matching its
index count), placing element 2 of the first partial at position
`3 - 1 = 2` indexes past the 2-element buffer and the call aborts, while
the spec's ordered recombination yields the key-ordered 3-element array. -/
theorem combine_and_sort_sizes_to_partial_count_bug :
    combine_and_sort_array_results
        [.Bulk [.Int 10, .Int 30], .Bulk [.Int 20]] [[1, 3], [2]]
      = .error .panicked ∧
    spec_ordered_recombine 3 [([1, 3], [.Int 10, .Int 30]), ([2], [.Int 20])]
      = [.Int 10, .Int 20, .Int 30] :=
  ⟨rfl, rfl⟩

/-- Claim C2, counterexample: `MSET k1 v1 k2` — a multi-set command whose
trailing key `k2` has no value — does not yield a routing plan covering the
complete pair `(k1, v1)`; `for_routable` reports the command unroutable
(`none`), contradicting the claim that the split cannot fail. -/
theorem mset_missing_value_unroutable_cex :
    RoutingInfo.for_routable [bytes "MSET", bytes "k1", bytes "v1", bytes "k2"] = none :=
  rfl

/-- Claim C3, counterexample: two integer-array partials of mismatched
lengths (2 and 1) under the logical-AND aggregate do not produce a typed
error — the call succeeds with a best-effort merge of the shorter partial
over the prefix of the longer one. -/
theorem logical_aggregate_mismatch_ok_cex :
    logical_aggregate [.Bulk [.Int 1, .Int 0], .Bulk [.Int 1]] .And
      = .ok (.Bulk [.Int 1, .Int 0]) :=
  rfl

/-- Claim C4, counterexample: an `EVAL` command whose key-count argument is
absent is reported unroutable (`for_routable` is `none`), not routed to
`SingleNode(Random)` as the claim states. -/
theorem eval_missing_keycount_cex :
    RoutingInfo.for_routable [bytes "EVAL", bytes "return 1"] = none ∧
    some (RoutingInfo.SingleNode .Random) ≠ none := by
  exact ⟨rfl, by simp⟩

/-- Dispatch of the decision table for `EVAL`: with the verb fixed, the
normalized command name and every table test reduce definitionally,
leaving the key-count branch. -/
theorem for_routable_eval (tail : Args) :
    RoutingInfo.for_routable (bytes "EVAL" :: tail)
      = match (arg_idx (bytes "EVAL" :: tail) 2).bind parse_u64 with
        | none => none
        | some key_count =>
          if key_count = 0 then some (.SingleNode .Random)
          else (arg_idx (bytes "EVAL" :: tail) 3).map
                 (fun key => RoutingInfo.for_key (bytes "EVAL") key) :=
  rfl

/-- Dispatch of the decision table for `EVALSHA`. -/
theorem for_routable_evalsha (tail : Args) :
    RoutingInfo.for_routable (bytes "EVALSHA" :: tail)
      = match (arg_idx (bytes "EVALSHA" :: tail) 2).bind parse_u64 with
        | none => none
        | some key_count =>
          if key_count = 0 then some (.SingleNode .Random)
          else (arg_idx (bytes "EVALSHA" :: tail) 3).map
                 (fun key => RoutingInfo.for_key (bytes "EVALSHA") key) :=
  rfl

/-- Claim C4 (amended): for every `EVAL`/`EVALSHA` command whose key-count
argument (index 2) is absent or fails to parse as a non-negative integer,
`for_routable` returns `none` — the command is reported unroutable; all the
failure cases fold into the same `None` short-circuit (not into
`SingleNode(Random)`). -/
theorem eval_bad_keycount_unroutable (verb : List Nat) (tail : Args)
    (hverb : verb = bytes "EVAL" ∨ verb = bytes "EVALSHA")
    (hkc : arg_idx (verb :: tail) 2 = none ∨
           ∃ s, arg_idx (verb :: tail) 2 = some s ∧ parse_u64 s = none) :
    RoutingInfo.for_routable (verb :: tail) = none := by
  rcases hverb with h | h <;> subst h
  · rw [for_routable_eval]
    rcases hkc with h | ⟨s, hs, hp⟩
    · rw [h]; rfl
    · rw [hs]; simp [hp]
  · rw [for_routable_evalsha]
    rcases hkc with h | ⟨s, hs, hp⟩
    · rw [h]; rfl
    · rw [hs]; simp [hp]

/-- Witness for `eval_bad_keycount_unroutable`: an `EVAL` whose key-count
argument `"abc"` is unparsable is unroutable. -/
theorem eval_bad_keycount_unroutable_witness :
    RoutingInfo.for_routable [bytes "EVAL", bytes "x", bytes "abc", bytes "k"] = none :=
  eval_bad_keycount_unroutable (bytes "EVAL") [bytes "x", bytes "abc", bytes "k"]
    (Or.inl rfl) (Or.inr ⟨bytes "abc", rfl, rfl⟩)

/-- Claim C8: for every `EVAL`/`EVALSHA` command, a key-count argument
parsing as `0` routes to `SingleNode(Random)` even when further arguments
exist, and a positive key count with a key present at argument index 3
routes to the specific node for that key's slot (master role: these verbs
are not classified read-only). -/
theorem eval_keycount_routing (verb : List Nat) (tail : Args)
    (hverb : verb = bytes "EVAL" ∨ verb = bytes "EVALSHA") :
    (∀ s, arg_idx (verb :: tail) 2 = some s → parse_u64 s = some 0 →
       RoutingInfo.for_routable (verb :: tail) = some (.SingleNode .Random)) ∧
    (∀ s n key, arg_idx (verb :: tail) 2 = some s → parse_u64 s = some n → 0 < n →
       arg_idx (verb :: tail) 3 = some key →
       RoutingInfo.for_routable (verb :: tail)
         = some (.SingleNode (.SpecificNode ⟨get_slot key, .Master⟩))) := by
  constructor
  · intro s hs hp
    rcases hverb with h | h <;> subst h
    · rw [for_routable_eval, hs]; simp [hp]
    · rw [for_routable_evalsha, hs]; simp [hp]
  · intro s n key hs hp hn hkey
    have hn0 : n ≠ 0 := Nat.pos_iff_ne_zero.mp hn
    rcases hverb with h | h <;> subst h
    · rw [for_routable_eval, hs]
      simp only [Option.some_bind, hp, if_neg hn0, hkey, Option.map_some']
      rfl
    · rw [for_routable_evalsha, hs]
      simp only [Option.some_bind, hp, if_neg hn0, hkey, Option.map_some']
      rfl

/-- Witness for `eval_keycount_routing`: `EVAL x 0 BAR` routes to a random
single node despite the extra argument, and `EVAL x 1 foo` routes to the
master owning slot 12182, the slot of `"foo"`. -/
theorem eval_keycount_routing_witness :
    RoutingInfo.for_routable [bytes "EVAL", bytes "x", bytes "0", bytes "BAR"]
      = some (.SingleNode .Random) ∧
    RoutingInfo.for_routable [bytes "EVAL", bytes "x", bytes "1", bytes "foo"]
      = some (.SingleNode (.SpecificNode ⟨12182, .Master⟩)) := by
  constructor
  · exact (eval_keycount_routing (bytes "EVAL") [bytes "x", bytes "0", bytes "BAR"]
      (Or.inl rfl)).1 (bytes "0") rfl rfl
  · have h := (eval_keycount_routing (bytes "EVAL") [bytes "x", bytes "1", bytes "foo"]
      (Or.inl rfl)).2 (bytes "1") 1 (bytes "foo") rfl rfl (by decide) rfl
    rw [h]
    rfl

/-- The missing-value probe of `multi_shard`: on an argument suffix of
complete key/value pairs followed by one trailing key with no value, the
loop reaches the trailing key, finds no value argument after it, and the
`r.arg_idx(index)?` short-circuit makes the whole split `None` — whatever
pairs were already grouped are discarded. -/
theorem msLoop_missing_value (ro : Bool) (ps : List (List Nat × List Nat)) :
    ∀ (k : List Nat) (index : Nat) (acc : List (Route × List Nat)),
    msLoop ro true (ps.flatMap (fun p => [p.1, p.2]) ++ [k]) index acc = none := by
  induction ps with
  | nil => intro k index acc; rfl
  | cons p ps ih =>
    intro k index acc
    simp only [List.flatMap_cons, List.cons_append, List.append_assoc]
    exact ih k (index + 2) _

/-- Dispatch of the decision table for `MSET`. -/
theorem for_routable_mset (tail : Args) :
    RoutingInfo.for_routable (bytes "MSET" :: tail)
      = multi_shard (bytes "MSET" :: tail) (bytes "MSET") 1 true :=
  rfl

/-- Claim C2 (amended): for every multi-set command whose trailing key has
no following value argument, the splitter aborts at the missing value —
`multi_shard` short-circuits to `None` and `for_routable` reports the whole
command as unroutable; no routing plan covering the preceding complete
key/value pairs is returned. -/
theorem mset_missing_value_returns_none (ps : List (List Nat × List Nat)) (k : List Nat) :
    RoutingInfo.for_routable (bytes "MSET" :: (ps.flatMap (fun p => [p.1, p.2]) ++ [k]))
      = none := by
  rw [for_routable_mset]
  unfold multi_shard
  rw [show (bytes "MSET" :: (ps.flatMap (fun p => [p.1, p.2]) ++ [k])).drop 1
        = ps.flatMap (fun p => [p.1, p.2]) ++ [k] from rfl]
  rw [msLoop_missing_value]

/-- `Iterator::position` finds nothing when no element satisfies. -/
theorem position_eq_none (p : α → Bool) (l : List α) (h : ∀ x ∈ l, p x = false) :
    position p l = none := by
  induction l with
  | nil => rfl
  | cons x xs ih =>
    unfold position
    rw [h x (by simp), ih (fun y hy => h y (by simp [hy]))]
    rfl

/-- `Iterator::position` finds the first satisfying element. -/
theorem position_append (p : α → Bool) (a : List α) (y : α) (b : List α)
    (ha : ∀ x ∈ a, p x = false) (hy : p y = true) :
    position p (a ++ y :: b) = some a.length := by
  induction a with
  | nil =>
    simp only [List.nil_append, List.length_nil]
    unfold position
    simp [hy]
  | cons x xs ih =>
    simp only [List.cons_append, List.length_cons]
    unfold position
    rw [ha x (by simp), ih (fun z hz => ha z (by simp [hz]))]
    rfl

/-- Dropping past a prepended prefix and one further element. -/
theorem drop_succ_append (a : List α) (x : α) (l : List α) :
    (a ++ x :: l).drop (a.length + 1) = l := by
  rw [show a ++ x :: l = (a ++ [x]) ++ l by simp,
      show a.length + 1 = (a ++ [x]).length by simp]
  exact List.drop_left _ _

/-- Claim C6: hash-tag extraction, characterized on every key shape the
claim names — writing `lb`/`rb` for the bytes 123 (`\x7b`) and 125
(`\x7d`): a key with no `lb` has no tag; an `lb` with no following `rb`
has no tag; an empty tag `lb rb` has no tag (the whole key is hashed);
otherwise the effective key is the substring strictly between the first
`lb` and the first `rb` after it — even when that substring itself
contains `lb` (nesting is not honored) — and `get_slot` hashes exactly
that substring. -/
theorem hashtag_extraction_spec :
    (∀ key : List Nat, (∀ x ∈ key, x ≠ 123) →
       get_hashtag key = none ∧ get_slot key = slot key) ∧
    (∀ a b : List Nat, (∀ x ∈ a, x ≠ 123) → (∀ x ∈ b, x ≠ 125) →
       get_hashtag (a ++ 123 :: b) = none ∧
       get_slot (a ++ 123 :: b) = slot (a ++ 123 :: b)) ∧
    (∀ a c : List Nat, (∀ x ∈ a, x ≠ 123) →
       get_hashtag (a ++ 123 :: 125 :: c) = none ∧
       get_slot (a ++ 123 :: 125 :: c) = slot (a ++ 123 :: 125 :: c)) ∧
    (∀ a b c : List Nat, (∀ x ∈ a, x ≠ 123) → (∀ x ∈ b, x ≠ 125) → b ≠ [] →
       get_hashtag (a ++ 123 :: b ++ 125 :: c) = some b ∧
       get_slot (a ++ 123 :: b ++ 125 :: c) = slot b) := by
  have hbeq : ∀ (t : Nat) (l : List Nat), (∀ x ∈ l, x ≠ t) →
      ∀ x ∈ l, (x == t) = false := by
    intro t l h x hx
    simpa using h x hx
  refine ⟨?_, ?_, ?_, ?_⟩
  · intro key h
    have h1 : get_hashtag key = none := by
      simp only [get_hashtag, position_eq_none _ _ (hbeq 123 key h)]
    exact ⟨h1, by unfold get_slot; rw [h1]⟩
  · intro a b ha hb
    have h1 : get_hashtag (a ++ 123 :: b) = none := by
      simp only [get_hashtag,
        position_append _ a 123 b (hbeq 123 a ha) (by decide),
        List.drop_left]
      unfold position
      simp [position_eq_none _ _ (hbeq 125 b hb)]
    exact ⟨h1, by unfold get_slot; rw [h1]⟩
  · intro a c ha
    have h1 : get_hashtag (a ++ 123 :: 125 :: c) = none := by
      simp only [get_hashtag,
        position_append _ a 123 (125 :: c) (hbeq 123 a ha) (by decide),
        List.drop_left]
      unfold position
      rw [show position (fun v => v == 125) (125 :: c) = some 0 by unfold position; simp]
      simp
    exact ⟨h1, by unfold get_slot; rw [h1]⟩
  · intro a b c ha hb hbne
    have h1 : get_hashtag (a ++ 123 :: b ++ 125 :: c) = some b := by
      rw [show a ++ 123 :: b ++ 125 :: c = a ++ 123 :: (b ++ 125 :: c) by simp]
      simp only [get_hashtag,
        position_append _ a 123 (b ++ 125 :: c) (hbeq 123 a ha) (by decide),
        List.drop_left]
      unfold position
      simp only [show ((123 : Nat) == 125) = false by decide, Bool.false_eq_true, if_false,
        position_append _ b 125 c (hbeq 125 b hb) (by decide), Option.map_some']
      simp only [Nat.add_sub_cancel, drop_succ_append, List.take_left]
      rw [if_neg (by simpa using hbne)]
    have h2 : get_slot (a ++ 123 :: b ++ 125 :: c) = slot b := by
      unfold get_slot; rw [h1]
    exact ⟨h1, h2⟩

/-- Witness for `hashtag_extraction_spec`, instantiating each shape on the
repository's own test keys: `"foo"` (no brace), `"foo" lb "bar"`
(unclosed), `"foo" lb rb "x"` (empty tag), and the nesting key
`"foo" lb lb "bar" rb rb "zap"`, whose effective key is `lb "bar"` — the
inner `lb` kept as ordinary tag content. -/
theorem hashtag_extraction_spec_witness :
    get_hashtag (bytes "foo") = none ∧
    get_hashtag (bytes "foo" ++ 123 :: bytes "bar") = none ∧
    get_hashtag (bytes "foo" ++ 123 :: 125 :: bytes "x") = none ∧
    get_hashtag (bytes "foo" ++ 123 :: (123 :: bytes "bar") ++ 125 :: (125 :: bytes "zap"))
      = some (123 :: bytes "bar") ∧
    get_slot (bytes "foo" ++ 123 :: (123 :: bytes "bar") ++ 125 :: (125 :: bytes "zap"))
      = slot (123 :: bytes "bar") := by
  obtain ⟨h1, h2, h3, h4⟩ := hashtag_extraction_spec
  refine ⟨(h1 (bytes "foo") (by decide)).1,
          (h2 (bytes "foo") (bytes "bar") (by decide) (by decide)).1,
          (h3 (bytes "foo") (bytes "x") (by decide)).1,
          (h4 (bytes "foo") (123 :: bytes "bar") (125 :: bytes "zap")
             (by decide) (by decide) (by decide)).1,
          (h4 (bytes "foo") (123 :: bytes "bar") (125 :: bytes "zap")
             (by decide) (by decide) (by decide)).2⟩

/-- On a strictly key-sorted association list, `find?` with the predicate
`s ≤ key` returns exactly the entry with the smallest key at least `s`. -/
theorem find?_min_key (m : List (Nat × SlotAddrs)) (s : Nat)
    (hsorted : m.Pairwise (fun e f => e.1 < f.1)) :
    ∀ e ∈ m, s ≤ e.1 → (∀ f ∈ m, s ≤ f.1 → e.1 ≤ f.1) →
      m.find? (fun p => decide (s ≤ p.1)) = some e := by
  induction m with
  | nil => intro e he; exact absurd he (List.not_mem_nil e)
  | cons h0 rest ih =>
    intro e he hse hmin
    by_cases hle : s ≤ h0.1
    · rw [List.find?_cons_of_pos _ (by simpa using hle)]
      rcases List.mem_cons.mp he with rfl | hrest
      · rfl
      · exact absurd (hmin h0 (List.mem_cons_self _ _) hle)
          (Nat.not_le.mpr ((List.pairwise_cons.mp hsorted).1 e hrest))
    · rw [List.find?_cons_of_neg _ (by simpa using hle)]
      rcases List.mem_cons.mp he with rfl | hrest
      · exact absurd hse hle
      · exact ih (List.pairwise_cons.mp hsorted).2 e hrest hse
          (fun f hf => hmin f (List.mem_cons_of_mem _ hf))

/-- Claim C7: on a slot map whose entries are strictly sorted by their
`end` boundary (the `BTreeMap` invariant), `slot_addr_for_route` returns
the address stored under the smallest end boundary that is at least the
route's slot, and returns `none` when every end boundary in the map is
below the route's slot. -/
theorem slot_addr_for_route_spec (m : SlotMap) (route : Route)
    (hsorted : m.Pairwise (fun e f => e.1 < f.1)) :
    ((∀ e ∈ m, e.1 < route.slot) → m.slot_addr_for_route route = none) ∧
    (∀ e ∈ m, route.slot ≤ e.1 → (∀ f ∈ m, route.slot ≤ f.1 → e.1 ≤ f.1) →
       m.slot_addr_for_route route = some (e.2.slot_addr route.slot_addr)) := by
  constructor
  · intro hall
    unfold SlotMap.slot_addr_for_route
    rw [List.find?_eq_none.mpr (fun x hx => by simpa using Nat.not_le.mpr (hall x hx))]
    rfl
  · intro e he hse hmin
    unfold SlotMap.slot_addr_for_route
    rw [find?_min_key m route.slot hsorted e he hse hmin]
    rfl

/-- Witness for `slot_addr_for_route_spec`, on the repository's own
two-range test map: slot 1500 resolves to the second range's master
`node2:6379` (its end boundary 2000 is the smallest one at least 1500),
and slot 2001 — beyond every boundary — resolves to nothing. -/
theorem slot_addr_for_route_spec_witness :
    SlotMap.slot_addr_for_route
        [(1000, ⟨"node1:6379", "replica1:6379"⟩), (2000, ⟨"node2:6379", "replica2:6379"⟩)]
        ⟨1500, .Master⟩
      = some "node2:6379" ∧
    SlotMap.slot_addr_for_route
        [(1000, ⟨"node1:6379", "replica1:6379"⟩), (2000, ⟨"node2:6379", "replica2:6379"⟩)]
        ⟨2001, .Master⟩
      = none := by
  constructor
  · exact (slot_addr_for_route_spec _ ⟨1500, .Master⟩
        (by simp)).2
      (2000, ⟨"node2:6379", "replica2:6379"⟩) (by simp) (by simp)
      (by intro f hf
          simp only [List.mem_cons, List.not_mem_nil, or_false] at hf
          rcases hf with rfl | rfl <;> simp)
  · exact (slot_addr_for_route_spec _ ⟨2001, .Master⟩
        (by simp)).1
      (by intro f hf
          simp only [List.mem_cons, List.not_mem_nil, or_false] at hf
          rcases hf with rfl | rfl <;> simp)

/-- Taking past an updated position splits off the written element. -/
theorem set_take_succ : ∀ (l : List α) (k : Nat) (a : α), k < l.length →
    (l.set k a).take (k + 1) = l.take k ++ [a]
  | [], k, a, h => absurd h (by simp)
  | x :: xs, 0, a, _ => rfl
  | x :: xs, k + 1, a, h => by
    simp only [List.set_cons_succ, List.take_succ_cons]
    rw [set_take_succ xs k a (by simpa using h)]
    rfl

/-- The element-wise logical-AND merge of the spec, truncated at the
shorter list: positions past the second list's length keep the first
list's value.  This is the observable behaviour of the source's in-place
`acc[index] = acc[index] && (int > 0)` loop when the second array is not
longer than the accumulator. -/
def mergeTrunc : List Bool → List Int → List Bool
  | acc, [] => acc
  | [], _ :: _ => []
  | a :: acc, y :: ys => (a && decide (0 < y)) :: mergeTrunc acc ys

/-- The in-place update loop `and_merge`, run over integer elements that
fit inside the accumulator starting at position `k`, succeeds and rewrites
exactly the window `[k, k + ys.length)` by the element-wise AND. -/
theorem and_merge_ok : ∀ (ys : List Int) (acc : List Bool) (k : Nat),
    k + ys.length ≤ acc.length →
    and_merge .And acc k (ys.map .Int) = .ok (acc.take k ++ mergeTrunc (acc.drop k) ys)
  | [], acc, k, h => by
    simp [and_merge, mergeTrunc, List.take_append_drop]
  | y :: ys, acc, k, h => by
    have hk : k < acc.length := by simp at h; omega
    simp only [List.map_cons, and_merge, dif_pos hk]
    rw [and_merge_ok ys _ (k + 1) (by simp at h ⊢; omega)]
    have hdrop : acc.drop k = acc[k] :: acc.drop (k + 1) := List.drop_eq_getElem_cons hk
    rw [hdrop]
    show _ = .ok (acc.take k ++ (acc[k] && decide (0 < y)) :: mergeTrunc (acc.drop (k + 1)) ys)
    rw [set_take_succ acc k _ hk, List.drop_set_of_lt _ _ (Nat.lt_succ_self k)]
    simp

/-- Merging into an all-`true` accumulator of matching length is the
positivity map. -/
theorem mergeTrunc_replicate_true : ∀ (xs : List Int),
    mergeTrunc (List.replicate xs.length true) xs = xs.map (fun x => decide (0 < x))
  | [] => rfl
  | x :: xs => by
    simp only [List.length_cons, List.replicate_succ, mergeTrunc, List.map_cons,
      Bool.true_and, mergeTrunc_replicate_true xs]

/-- The in-place update loop `and_merge` aborts when its integer elements
outrun the accumulator: walking a non-empty element list from position `k`
past `acc.length` reaches an out-of-bounds write. -/
theorem and_merge_overflow : ∀ (ys : List Int) (acc : List Bool) (k : Nat),
    ys ≠ [] → acc.length < k + ys.length →
    and_merge .And acc k (ys.map .Int) = .error .panicked
  | [], _, _, hne, _ => absurd rfl hne
  | y :: ys, acc, k, _, hlen => by
    simp only [List.map_cons, and_merge]
    by_cases hk : k < acc.length
    · rw [dif_pos hk]
      cases ys with
      | nil => exact absurd hlen (by simp; omega)
      | cons y2 ys2 =>
        exact and_merge_overflow (y2 :: ys2) _ (k + 1) (by simp)
          (by simp only [List.length_set, List.length_cons] at hlen ⊢; omega)
    · rw [dif_neg hk]

/-- Claim C3 (amended): mismatched array lengths do not produce a typed
error.  Under the logical-AND aggregate, a second integer-array partial no
longer than the first is merged element-wise over its prefix and the call
succeeds — a best-effort partial merge, the remaining positions keeping the
first partial's truth values — while a second partial strictly longer than
a non-empty first aborts with an out-of-bounds panic, not a typed
`RedisResult` error.  Under ordered recombination, a partial whose array
length differs from its route's index count fails the source's
`assert_eq!` — likewise an abort, not a typed error. -/
theorem length_mismatch_no_typed_error :
    (∀ xs ys : List Int, ys.length ≤ xs.length →
       logical_aggregate [.Bulk (xs.map .Int), .Bulk (ys.map .Int)] .And
         = .ok (.Bulk ((mergeTrunc (xs.map (fun x => decide (0 < x))) ys).map
             (fun result => .Int (if result then 1 else 0))))) ∧
    (∀ xs ys : List Int, xs ≠ [] → xs.length < ys.length →
       logical_aggregate [.Bulk (xs.map .Int), .Bulk (ys.map .Int)] .And
         = .error .panicked) ∧
    (∀ (vs : List Value) (key_indices : List Nat), vs.length ≠ key_indices.length →
       combine_and_sort_array_results [.Bulk vs] [key_indices] = .error .panicked) := by
  refine ⟨?_, ?_, ?_⟩
  · intro xs ys hlen
    simp only [logical_aggregate, la_fold, List.isEmpty_nil, List.length_map, if_true]
    rw [and_merge_ok xs (List.replicate xs.length true) 0 (by simp)]
    simp only [List.drop_zero, List.take_zero, List.nil_append, mergeTrunc_replicate_true]
    cases hxs : xs with
    | nil =>
      have hys : ys = [] := List.length_eq_zero.mp (by simpa [hxs] using hlen)
      subst hys
      simp [la_fold, and_merge, mergeTrunc]
      rfl
    | cons x xs2 =>
      rw [← hxs]
      have hne2 : (xs.map (fun x => decide (0 < x))).isEmpty = false := by simp [hxs]
      simp only [la_fold, hne2, Bool.false_eq_true, if_false]
      rw [and_merge_ok ys _ 0 (by simpa using hlen)]
      simp [la_fold]
      rfl
  · intro xs ys hxs hlen
    have hys : ys ≠ [] := by
      cases ys with
      | nil => exact absurd hlen (by simp)
      | cons a b => simp
    simp only [logical_aggregate, la_fold, List.isEmpty_nil, List.length_map, if_true]
    rw [and_merge_ok xs (List.replicate xs.length true) 0 (by simp)]
    simp only [List.drop_zero, List.take_zero, List.nil_append, mergeTrunc_replicate_true]
    have hne2 : (xs.map (fun x => decide (0 < x))).isEmpty = false := by
      cases xs with
      | nil => exact absurd rfl hxs
      | cons a b => simp
    simp only [la_fold, hne2, Bool.false_eq_true, if_false]
    rw [and_merge_overflow ys _ 0 hys (by simpa using hlen)]
    rfl
  · intro vs key_indices hne
    unfold combine_and_sort_array_results cas_fold
    simp [hne]
    rfl

/-- Witness for `length_mismatch_no_typed_error`: partials `[1,0]` and the
shorter `[1]` merge without error to `[1,0]`; partials `[1]` and the longer
`[1,2]` abort out of bounds; and a single one-element partial declared for
two indices aborts at the assertion. -/
theorem length_mismatch_no_typed_error_witness :
    logical_aggregate [.Bulk [.Int 1, .Int 0], .Bulk [.Int 1]] .And
      = .ok (.Bulk [.Int 1, .Int 0]) ∧
    logical_aggregate [.Bulk [.Int 1], .Bulk [.Int 1, .Int 2]] .And
      = .error .panicked ∧
    combine_and_sort_array_results [.Bulk [.Int 5]] [[1, 2]] = .error .panicked := by
  refine ⟨?_, ?_, ?_⟩
  · have h := length_mismatch_no_typed_error.1 [1, 0] [1] (by decide)
    simpa using h
  · exact length_mismatch_no_typed_error.2.1 [1] [1, 2] (by decide) (by decide)
  · exact length_mismatch_no_typed_error.2.2 [.Int 5] [1, 2] (by decide)

/-!
Invariants of the route-grouping accumulator.  The scan of `multi_shard`
is reduced (lemmas `msLoop_eq_foldl_taggedNV` / `msLoop_eq_foldl_taggedP`
below) to a left fold of single insertions over a "tagged" list of
`(route, argument index)` pairs, and the properties of the resulting plan
are proved once about that fold.
-/

/-- One insertion step of the grouping fold. -/
def tstep (acc : List (Route × List Nat)) (q : Route × Nat) : List (Route × List Nat) :=
  addIndex acc q.1 q.2

/-- How a grouped-lookup result extends: an existing group gains the new
indices at its end; an absent group appears exactly when new indices
exist. -/
def extFind (o : Option (List Nat)) (ext : List Nat) : Option (List Nat) :=
  match o with
  | some l0 => some (l0 ++ ext)
  | none => if ext.isEmpty then none else some ext

theorem extFind_nil (o : Option (List Nat)) : extFind o [] = o := by
  cases o <;> simp [extFind]

theorem findRoute_addIndex (acc : List (Route × List Nat)) (rt : Route) (j : Nat)
    (q : Route) :
    findRoute (addIndex acc rt j) q
      = if q = rt then some ((findRoute acc rt).getD [] ++ [j]) else findRoute acc q := by
  induction acc with
  | nil =>
    by_cases hq : q = rt
    · subst hq; simp [addIndex, findRoute]
    · have hq2 : ¬ rt = q := fun h => hq h.symm
      simp [addIndex, findRoute, hq, hq2]
  | cons e rest ih =>
    obtain ⟨r0, l0⟩ := e
    by_cases h0 : r0 = rt
    · subst h0
      by_cases hq : q = r0
      · subst hq; simp [addIndex, findRoute]
      · have hq2 : ¬ r0 = q := fun h => hq h.symm
        simp [addIndex, findRoute, hq, hq2]
    · by_cases hq : q = r0
      · subst hq
        simp [addIndex, findRoute, h0]
      · have hq2 : ¬ r0 = q := fun h => hq h.symm
        simp [addIndex, findRoute, h0, hq2, ih]

theorem map_fst_addIndex (acc : List (Route × List Nat)) (rt : Route) (j : Nat) :
    (addIndex acc rt j).map Prod.fst
      = if rt ∈ acc.map Prod.fst then acc.map Prod.fst else acc.map Prod.fst ++ [rt] := by
  induction acc with
  | nil => simp [addIndex]
  | cons e rest ih =>
    obtain ⟨r0, l0⟩ := e
    by_cases h0 : r0 = rt
    · subst h0; simp [addIndex]
    · have h02 : ¬ rt = r0 := fun h => h0 h.symm
      simp only [addIndex, if_neg h0, List.map_cons, List.mem_cons]
      rw [ih]
      by_cases hmem : rt ∈ rest.map Prod.fst
      · simp [hmem, h02]
      · simp [hmem, h02]

theorem flatten_addIndex (acc : List (Route × List Nat)) (rt : Route) (j : Nat) :
    ((addIndex acc rt j).map Prod.snd).flatten.Perm
      (((acc.map Prod.snd).flatten) ++ [j]) := by
  induction acc with
  | nil => simp [addIndex]
  | cons e rest ih =>
    obtain ⟨r0, l0⟩ := e
    by_cases h0 : r0 = rt
    · subst h0
      simp only [addIndex, eq_self_iff_true, if_true, List.map_cons, List.flatten_cons,
        List.append_assoc]
      exact List.Perm.append_left l0 (@List.perm_append_comm _ [j] _)
    · simp only [addIndex, if_neg h0, List.map_cons, List.flatten_cons, List.append_assoc]
      exact List.Perm.append_left l0 ih

/-- Lookup after the whole grouping fold: a route's final group is its
group in the initial accumulator extended by the tagged indices carrying
that route, in their tagged order. -/
theorem findRoute_foldl_tstep (tl : List (Route × Nat)) :
    ∀ (acc : List (Route × List Nat)) (q : Route),
    findRoute (tl.foldl tstep acc) q
      = extFind (findRoute acc q) ((tl.filter (fun e => e.1 = q)).map Prod.snd) := by
  induction tl with
  | nil => intro acc q; simp [extFind_nil]
  | cons e tl ih =>
    intro acc q
    obtain ⟨rt, j⟩ := e
    simp only [List.foldl_cons]
    rw [ih (tstep acc (rt, j)) q]
    show extFind (findRoute (addIndex acc rt j) q) _ = _
    rw [findRoute_addIndex]
    by_cases hq : q = rt
    · subst hq
      rw [if_pos rfl]
      rw [show List.filter (fun e => decide (e.1 = q)) ((q, j) :: tl)
            = (q, j) :: List.filter (fun e => decide (e.1 = q)) tl by simp]
      rw [List.map_cons]
      cases hsrc : findRoute acc q with
      | none => simp [extFind]
      | some l0 => simp [extFind]
    · rw [if_neg hq]
      have hq2 : ¬ rt = q := fun h => hq h.symm
      rw [show List.filter (fun e => decide (e.1 = q)) ((rt, j) :: tl)
            = List.filter (fun e => decide (e.1 = q)) tl by
          simp [hq2]]

/-- The routes present after the grouping fold are those already present
plus those of the tagged list. -/
theorem mem_map_fst_foldl_tstep (tl : List (Route × Nat)) :
    ∀ (acc : List (Route × List Nat)) (q : Route),
    q ∈ (tl.foldl tstep acc).map Prod.fst
      ↔ q ∈ acc.map Prod.fst ∨ q ∈ tl.map Prod.fst := by
  induction tl with
  | nil => intro acc q; simp
  | cons e tl ih =>
    intro acc q
    obtain ⟨rt, j⟩ := e
    simp only [List.foldl_cons, List.map_cons, List.mem_cons]
    rw [ih (tstep acc (rt, j)) q]
    show q ∈ (addIndex acc rt j).map Prod.fst ∨ _ ↔ _
    rw [map_fst_addIndex]
    by_cases hmem : rt ∈ acc.map Prod.fst
    · rw [if_pos hmem]
      constructor
      · rintro (h | h)
        · exact Or.inl h
        · exact Or.inr (Or.inr h)
      · rintro (h | rfl | h)
        · exact Or.inl h
        · exact Or.inl hmem
        · exact Or.inr h
    · rw [if_neg hmem]
      simp only [List.mem_append, List.mem_singleton]
      constructor
      · rintro ((h | rfl) | h)
        · exact Or.inl h
        · exact Or.inr (Or.inl rfl)
        · exact Or.inr (Or.inr h)
      · rintro (h | rfl | h)
        · exact Or.inl (Or.inl h)
        · exact Or.inl (Or.inr rfl)
        · exact Or.inr h

/-- The grouping fold never duplicates a route entry. -/
theorem nodup_map_fst_foldl_tstep (tl : List (Route × Nat)) :
    ∀ (acc : List (Route × List Nat)), (acc.map Prod.fst).Nodup →
    ((tl.foldl tstep acc).map Prod.fst).Nodup := by
  induction tl with
  | nil => intro acc h; simpa using h
  | cons e tl ih =>
    intro acc h
    obtain ⟨rt, j⟩ := e
    simp only [List.foldl_cons]
    refine ih (tstep acc (rt, j)) ?_
    show ((addIndex acc rt j).map Prod.fst).Nodup
    rw [map_fst_addIndex]
    by_cases hmem : rt ∈ acc.map Prod.fst
    · rwa [if_pos hmem]
    · rw [if_neg hmem]
      exact ((List.perm_append_singleton rt _).nodup_iff).mpr
        (List.nodup_cons.mpr ⟨hmem, h⟩)

/-- The grouping fold preserves the multiset of indices: the flattened
final groups are a permutation of the initial groups' indices followed by
the tagged indices. -/
theorem flatten_foldl_tstep (tl : List (Route × Nat)) :
    ∀ (acc : List (Route × List Nat)),
    ((tl.foldl tstep acc).map Prod.snd).flatten.Perm
      (((acc.map Prod.snd).flatten) ++ tl.map Prod.snd) := by
  induction tl with
  | nil => intro acc; simp
  | cons e tl ih =>
    intro acc
    obtain ⟨rt, j⟩ := e
    simp only [List.foldl_cons, List.map_cons]
    refine (ih (tstep acc (rt, j))).trans ?_
    have h1 : ((tstep acc (rt, j)).map Prod.snd).flatten.Perm
        ((acc.map Prod.snd).flatten ++ [j]) := flatten_addIndex acc rt j
    refine (h1.append_right (tl.map Prod.snd)).trans ?_
    rw [List.append_assoc, List.singleton_append]

/-- A successful lookup names an entry of the association list. -/
theorem mem_of_findRoute (acc : List (Route × List Nat)) (q : Route) (l : List Nat) :
    findRoute acc q = some l → (q, l) ∈ acc := by
  induction acc with
  | nil => intro h; exact absurd h (by simp [findRoute])
  | cons e rest ih =>
    obtain ⟨r0, l0⟩ := e
    intro h
    unfold findRoute at h
    by_cases h0 : r0 = q
    · rw [if_pos h0] at h
      subst h0
      obtain rfl : l0 = l := by simpa using h
      exact List.mem_cons_self _ _
    · rw [if_neg h0] at h
      exact List.mem_cons_of_mem _ (ih h)

/-- With no duplicate routes, each entry is reached by lookup. -/
theorem findRoute_of_mem (acc : List (Route × List Nat)) (q : Route) (l : List Nat) :
    (acc.map Prod.fst).Nodup → (q, l) ∈ acc → findRoute acc q = some l := by
  induction acc with
  | nil => intro _ hmem; exact absurd hmem (List.not_mem_nil _)
  | cons e rest ih =>
    obtain ⟨r0, l0⟩ := e
    intro hnd hmem
    rw [List.map_cons, List.nodup_cons] at hnd
    rcases List.mem_cons.mp hmem with heq | hrest
    · injection heq with h1 h2
      subst h1; subst h2
      simp [findRoute]
    · have hq0 : ¬ r0 = q := by
        rintro rfl
        exact hnd.1 (List.mem_map.mpr ⟨(r0, l), hrest, rfl⟩)
      unfold findRoute
      rw [if_neg hq0]
      exact ih hnd.2 hrest

/-- The `(route, argument index)` insertions performed by the key-only scan
(`has_values = false`) over the argument suffix `keys` starting at
argument index `i`. -/
def taggedNV (is_readonly : Bool) : List (List Nat) → Nat → List (Route × Nat)
  | [], _ => []
  | key :: rest, i => (get_route is_readonly key, i) :: taggedNV is_readonly rest (i + 1)

/-- The insertions performed by the key/value scan (`has_values = true`)
over complete pairs: each pair contributes its key index and the following
value index, both grouped under the key's route. -/
def taggedP (is_readonly : Bool) : List (List Nat × List Nat) → Nat → List (Route × Nat)
  | [], _ => []
  | p :: rest, i =>
    (get_route is_readonly p.1, i) :: (get_route is_readonly p.1, i + 1)
      :: taggedP is_readonly rest (i + 2)

/-- The key-only scan is the grouping fold over its tagged insertions. -/
theorem msLoop_eq_foldl_taggedNV (ro : Bool) (keys : List (List Nat)) :
    ∀ (i : Nat) (acc : List (Route × List Nat)),
    msLoop ro false keys i acc = some ((taggedNV ro keys i).foldl tstep acc) := by
  induction keys with
  | nil => intro i acc; rfl
  | cons key rest ih =>
    intro i acc
    have hstep : msLoop ro false (key :: rest) i acc
        = msLoop ro false rest (i + 1) (addIndex acc (get_route ro key) i) := by
      conv_lhs => rw [msLoop.eq_def]
      simp
    rw [hstep, ih (i + 1) _]
    rfl

/-- The key/value scan over complete pairs is the grouping fold over its
tagged insertions. -/
theorem msLoop_eq_foldl_taggedP (ro : Bool) (ps : List (List Nat × List Nat)) :
    ∀ (i : Nat) (acc : List (Route × List Nat)),
    msLoop ro true (ps.flatMap (fun p => [p.1, p.2])) i acc
      = some ((taggedP ro ps i).foldl tstep acc) := by
  induction ps with
  | nil => intro i acc; rfl
  | cons p rest ih =>
    intro i acc
    simp only [List.flatMap_cons, List.cons_append, List.append_assoc]
    show msLoop ro true (rest.flatMap fun p => [p.1, p.2]) (i + 2)
        (addIndex (addIndex acc (get_route ro p.1) i) (get_route ro p.1) (i + 1)) = _
    rw [ih (i + 2) _]
    rfl

theorem taggedNV_map_snd (ro : Bool) (keys : List (List Nat)) :
    ∀ i, (taggedNV ro keys i).map Prod.snd = List.range' i keys.length := by
  induction keys with
  | nil => intro i; rfl
  | cons key rest ih =>
    intro i
    simp only [taggedNV, List.map_cons, List.length_cons, List.range'_succ, ih (i + 1)]

theorem taggedNV_map_fst (ro : Bool) (keys : List (List Nat)) :
    ∀ i, (taggedNV ro keys i).map Prod.fst = keys.map (get_route ro) := by
  induction keys with
  | nil => intro i; rfl
  | cons key rest ih =>
    intro i
    simp only [taggedNV, List.map_cons, ih (i + 1)]

theorem taggedNV_mem (ro : Bool) (keys : List (List Nat)) :
    ∀ i q, q ∈ taggedNV ro keys i →
      i ≤ q.2 ∧ ∃ key, keys[q.2 - i]? = some key ∧ q.1 = get_route ro key := by
  induction keys with
  | nil => intro i q h; exact absurd h (List.not_mem_nil _)
  | cons key rest ih =>
    intro i q h
    rcases List.mem_cons.mp h with rfl | htail
    · exact ⟨Nat.le_refl i, key, by simp, rfl⟩
    · obtain ⟨hle, key2, hget, hrt⟩ := ih (i + 1) q htail
      refine ⟨by omega, key2, ?_, hrt⟩
      rw [show q.2 - i = (q.2 - (i + 1)) + 1 by omega]
      simpa using hget

theorem taggedP_map_snd (ro : Bool) (ps : List (List Nat × List Nat)) :
    ∀ i, (taggedP ro ps i).map Prod.snd = List.range' i (2 * ps.length) := by
  induction ps with
  | nil => intro i; rfl
  | cons p rest ih =>
    intro i
    have h2 : 2 * (p :: rest).length = (2 * rest.length + 1) + 1 := by
      simp [List.length_cons]; omega
    rw [h2, List.range'_succ, List.range'_succ]
    simp only [taggedP, List.map_cons, ih (i + 2)]

theorem taggedP_mem_fst (ro : Bool) (ps : List (List Nat × List Nat)) :
    ∀ i q, q ∈ (taggedP ro ps i).map Prod.fst
      ↔ q ∈ ps.map (fun p => get_route ro p.1) := by
  induction ps with
  | nil => intro i q; rfl
  | cons p rest ih =>
    intro i q
    simp only [taggedP, List.map_cons, List.mem_cons, ih (i + 2)]
    tauto

theorem taggedP_mem_keyval (ro : Bool) (ps : List (List Nat × List Nat)) :
    ∀ i t pr, ps[t]? = some pr →
      (get_route ro pr.1, i + 2 * t) ∈ taggedP ro ps i ∧
      (get_route ro pr.1, i + 2 * t + 1) ∈ taggedP ro ps i := by
  induction ps with
  | nil => intro i t pr h; simp at h
  | cons p rest ih =>
    intro i t pr h
    cases t with
    | zero =>
      obtain rfl : p = pr := by simpa using h
      constructor
      · exact List.mem_cons_self _ _
      · exact List.mem_cons_of_mem _ (List.mem_cons_self _ _)
    | succ t =>
      have h2 : rest[t]? = some pr := by simpa using h
      obtain ⟨ha, hb⟩ := ih (i + 2) t pr h2
      have hidx : i + 2 + 2 * t = i + 2 * (t + 1) := by omega
      have hidx2 : i + 2 + 2 * t + 1 = i + 2 * (t + 1) + 1 := by omega
      exact ⟨List.mem_cons_of_mem _ (List.mem_cons_of_mem _ (hidx ▸ ha)),
             List.mem_cons_of_mem _ (List.mem_cons_of_mem _ (hidx2 ▸ hb))⟩

/-- Two route lists with the same members, the first duplicate-free, have
matching counts of distinct routes. -/
theorem nodup_length_eq_dedup_length (L M : List Route) (hnd : L.Nodup)
    (hiff : ∀ x, x ∈ L ↔ x ∈ M) : L.length = M.dedup.length := by
  have h1 : L.toFinset = M.toFinset := by
    ext x
    simp only [List.mem_toFinset]
    exact hiff x
  calc L.length = L.toFinset.card := (List.toFinset_card_of_nodup hnd).symm
    _ = M.toFinset.card := by rw [h1]
    _ = M.dedup.length := List.card_toFinset M

theorem buildPlan_nodup (tl : List (Route × Nat)) :
    ((tl.foldl tstep []).map Prod.fst).Nodup :=
  nodup_map_fst_foldl_tstep tl [] (by simp)

theorem buildPlan_mem (tl : List (Route × Nat)) (q : Route) :
    q ∈ (tl.foldl tstep []).map Prod.fst ↔ q ∈ tl.map Prod.fst := by
  rw [mem_map_fst_foldl_tstep]
  simp

theorem buildPlan_flatten (tl : List (Route × Nat)) :
    (((tl.foldl tstep []).map Prod.snd).flatten).Perm (tl.map Prod.snd) := by
  simpa using flatten_foldl_tstep tl []

theorem buildPlan_snd (tl : List (Route × Nat)) (p : Route × List Nat)
    (hp : p ∈ tl.foldl tstep []) :
    p.2 = (tl.filter (fun e => e.1 = p.1)).map Prod.snd := by
  have hfind := findRoute_of_mem _ p.1 p.2 (buildPlan_nodup tl) hp
  rw [findRoute_foldl_tstep, show findRoute [] p.1 = none from rfl] at hfind
  simp only [extFind] at hfind
  split at hfind
  · exact absurd hfind (by simp)
  · exact (Option.some.inj hfind).symm

theorem buildPlan_length (tl : List (Route × Nat)) (M : List Route)
    (hiff : ∀ x, x ∈ tl.map Prod.fst ↔ x ∈ M) :
    (tl.foldl tstep []).length = M.dedup.length := by
  rw [← List.length_map (tl.foldl tstep []) Prod.fst]
  exact nodup_length_eq_dedup_length _ M (buildPlan_nodup tl)
    (fun x => (buildPlan_mem tl x).trans (hiff x))

/-- The full specification of the key-only splitter (`DEL`/`EXISTS`/
`UNLINK`/`TOUCH`/`MGET` families): the plan's route count, its partition of
the argument indices, per-group index order and per-group route
correctness, and the collapse to a single specific node. -/
theorem multi_shard_nv_spec (verb cmd : List Nat) (keys : List (List Nat))
    (hne : keys ≠ []) :
    ((keys.map (get_route (is_readonly_cmd cmd))).dedup.length = 1 →
       multi_shard (verb :: keys) cmd 1 false
         = some (.SingleNode (.SpecificNode
             (get_route (is_readonly_cmd cmd) (keys.headD []))))) ∧
    (2 ≤ (keys.map (get_route (is_readonly_cmd cmd))).dedup.length →
       ∃ plan, multi_shard (verb :: keys) cmd 1 false
           = some (.MultiNode (.MultiSlot plan)) ∧
         plan.length = (keys.map (get_route (is_readonly_cmd cmd))).dedup.length ∧
         ((plan.map Prod.snd).flatten).Perm (List.range' 1 keys.length) ∧
         (∀ p ∈ plan, List.Sorted (· < ·) p.2) ∧
         (∀ p ∈ plan, ∀ j ∈ p.2, ∃ key, keys[j - 1]? = some key ∧
            p.1 = get_route (is_readonly_cmd cmd) key)) := by
  have hlen : ((taggedNV (is_readonly_cmd cmd) keys 1).foldl tstep []).length
      = (keys.map (get_route (is_readonly_cmd cmd))).dedup.length :=
    buildPlan_length _ _ (fun x => by
      rw [taggedNV_map_fst (is_readonly_cmd cmd) keys 1])
  constructor
  · intro h1
    obtain ⟨p, hp⟩ := List.length_eq_one.mp (hlen.trans h1)
    obtain ⟨k0, keys2, rfl⟩ : ∃ k0 keys2, keys = k0 :: keys2 := by
      cases keys with
      | nil => exact absurd rfl hne
      | cons a b => exact ⟨a, b, rfl⟩
    have hk0 : get_route (is_readonly_cmd cmd) k0
        ∈ ((taggedNV (is_readonly_cmd cmd) (k0 :: keys2) 1).foldl tstep []).map Prod.fst := by
      rw [buildPlan_mem, taggedNV_map_fst]
      simp
    rw [hp] at hk0
    simp only [List.map_cons, List.map_nil, List.mem_singleton] at hk0
    unfold multi_shard
    rw [show ((verb :: k0 :: keys2 : List (List Nat)).drop 1) = k0 :: keys2 from rfl,
        msLoop_eq_foldl_taggedNV (is_readonly_cmd cmd) (k0 :: keys2) 1 []]
    simp only [hp]
    rw [← hk0]
    rfl
  · intro h2
    have hp2 : 2 ≤ ((taggedNV (is_readonly_cmd cmd) keys 1).foldl tstep []).length :=
      hlen ▸ h2
    obtain ⟨a, b, t2, hplan⟩ : ∃ a b t2,
        (taggedNV (is_readonly_cmd cmd) keys 1).foldl tstep [] = a :: b :: t2 := by
      rcases hpl : (taggedNV (is_readonly_cmd cmd) keys 1).foldl tstep [] with _ | ⟨a, t⟩
      · rw [hpl] at hp2; simp at hp2
      · rcases t with _ | ⟨b, t2⟩
        · rw [hpl] at hp2; simp at hp2
        · exact ⟨a, b, t2, rfl⟩
    refine ⟨(taggedNV (is_readonly_cmd cmd) keys 1).foldl tstep [], ?_, hlen, ?_, ?_, ?_⟩
    · unfold multi_shard
      rw [show ((verb :: keys : List (List Nat)).drop 1) = keys from rfl,
          msLoop_eq_foldl_taggedNV (is_readonly_cmd cmd) keys 1 []]
      rw [hplan]
    · have h := buildPlan_flatten (taggedNV (is_readonly_cmd cmd) keys 1)
      rwa [taggedNV_map_snd] at h
    · intro p hp
      have hsnd := buildPlan_snd _ p hp
      have hsub : p.2.Sublist ((taggedNV (is_readonly_cmd cmd) keys 1).map Prod.snd) := by
        rw [hsnd]
        exact (List.filter_sublist _).map Prod.snd
      rw [taggedNV_map_snd] at hsub
      exact List.Pairwise.sublist hsub (List.pairwise_lt_range' 1 keys.length)
    · intro p hp j hj
      have hsnd := buildPlan_snd _ p hp
      rw [hsnd] at hj
      obtain ⟨e, he, rfl⟩ := List.mem_map.mp hj
      obtain ⟨hetl, herte⟩ := List.mem_filter.mp he
      obtain ⟨hle, key, hget, hrt⟩ := taggedNV_mem (is_readonly_cmd cmd) keys 1 e hetl
      exact ⟨key, hget, by rw [← (by simpa using herte : e.1 = p.1), hrt]⟩

/-- The full specification of the key/value splitter (`MSET` family) on a
command of complete pairs: the plan's route count is the number of distinct
key routes, the groups partition all key and value argument indices in
order, each pair's key and value indices land in its key's group, and a
single distinct route collapses to that specific node. -/
theorem multi_shard_pairs_spec (verb cmd : List Nat)
    (ps : List (List Nat × List Nat)) (hne : ps ≠ []) :
    ((ps.map (fun p => get_route (is_readonly_cmd cmd) p.1)).dedup.length = 1 →
       multi_shard (verb :: ps.flatMap (fun p => [p.1, p.2])) cmd 1 true
         = some (.SingleNode (.SpecificNode
             (get_route (is_readonly_cmd cmd) (ps.headD ([], [])).1)))) ∧
    (2 ≤ (ps.map (fun p => get_route (is_readonly_cmd cmd) p.1)).dedup.length →
       ∃ plan, multi_shard (verb :: ps.flatMap (fun p => [p.1, p.2])) cmd 1 true
           = some (.MultiNode (.MultiSlot plan)) ∧
         plan.length = (ps.map (fun p => get_route (is_readonly_cmd cmd) p.1)).dedup.length ∧
         ((plan.map Prod.snd).flatten).Perm (List.range' 1 (2 * ps.length)) ∧
         (∀ p ∈ plan, List.Sorted (· < ·) p.2) ∧
         (∀ t pr, ps[t]? = some pr → ∃ l,
            (get_route (is_readonly_cmd cmd) pr.1, l) ∈ plan ∧
            2 * t + 1 ∈ l ∧ 2 * t + 2 ∈ l)) := by
  have hlen : ((taggedP (is_readonly_cmd cmd) ps 1).foldl tstep []).length
      = (ps.map (fun p => get_route (is_readonly_cmd cmd) p.1)).dedup.length :=
    buildPlan_length _ _ (fun x => taggedP_mem_fst (is_readonly_cmd cmd) ps 1 x)
  constructor
  · intro h1
    obtain ⟨p, hp⟩ := List.length_eq_one.mp (hlen.trans h1)
    obtain ⟨p0, ps2, rfl⟩ : ∃ p0 ps2, ps = p0 :: ps2 := by
      cases ps with
      | nil => exact absurd rfl hne
      | cons a b => exact ⟨a, b, rfl⟩
    have hk0 : get_route (is_readonly_cmd cmd) p0.1
        ∈ ((taggedP (is_readonly_cmd cmd) (p0 :: ps2) 1).foldl tstep []).map Prod.fst := by
      rw [buildPlan_mem, taggedP_mem_fst]
      simp
    rw [hp] at hk0
    simp only [List.map_cons, List.map_nil, List.mem_singleton] at hk0
    unfold multi_shard
    rw [show ((verb :: (p0 :: ps2).flatMap (fun p => [p.1, p.2]) : List (List Nat)).drop 1)
          = (p0 :: ps2).flatMap (fun p => [p.1, p.2]) from rfl,
        msLoop_eq_foldl_taggedP (is_readonly_cmd cmd) (p0 :: ps2) 1 []]
    simp only [hp]
    rw [← hk0]
    rfl
  · intro h2
    have hp2 : 2 ≤ ((taggedP (is_readonly_cmd cmd) ps 1).foldl tstep []).length :=
      hlen ▸ h2
    obtain ⟨a, b, t2, hplan⟩ : ∃ a b t2,
        (taggedP (is_readonly_cmd cmd) ps 1).foldl tstep [] = a :: b :: t2 := by
      rcases hpl : (taggedP (is_readonly_cmd cmd) ps 1).foldl tstep [] with _ | ⟨a, t⟩
      · rw [hpl] at hp2; simp at hp2
      · rcases t with _ | ⟨b, t2⟩
        · rw [hpl] at hp2; simp at hp2
        · exact ⟨a, b, t2, rfl⟩
    refine ⟨(taggedP (is_readonly_cmd cmd) ps 1).foldl tstep [], ?_, hlen, ?_, ?_, ?_⟩
    · unfold multi_shard
      rw [show ((verb :: ps.flatMap (fun p => [p.1, p.2]) : List (List Nat)).drop 1)
            = ps.flatMap (fun p => [p.1, p.2]) from rfl,
          msLoop_eq_foldl_taggedP (is_readonly_cmd cmd) ps 1 []]
      rw [hplan]
    · have h := buildPlan_flatten (taggedP (is_readonly_cmd cmd) ps 1)
      rwa [taggedP_map_snd] at h
    · intro p hp
      have hsnd := buildPlan_snd _ p hp
      have hsub : p.2.Sublist ((taggedP (is_readonly_cmd cmd) ps 1).map Prod.snd) := by
        rw [hsnd]
        exact (List.filter_sublist _).map Prod.snd
      rw [taggedP_map_snd] at hsub
      exact List.Pairwise.sublist hsub (List.pairwise_lt_range' 1 (2 * ps.length))
    · intro t pr hpr
      obtain ⟨hkey, hval⟩ := taggedP_mem_keyval (is_readonly_cmd cmd) ps 1 t pr hpr
      have hkey2 : (get_route (is_readonly_cmd cmd) pr.1, 2 * t + 1)
          ∈ taggedP (is_readonly_cmd cmd) ps 1 := by
        rwa [show 2 * t + 1 = 1 + 2 * t by omega]
      have hval2 : (get_route (is_readonly_cmd cmd) pr.1, 2 * t + 2)
          ∈ taggedP (is_readonly_cmd cmd) ps 1 := by
        rwa [show 2 * t + 2 = 1 + 2 * t + 1 by omega]
      have hkmem : 2 * t + 1 ∈ ((taggedP (is_readonly_cmd cmd) ps 1).filter
          (fun e => e.1 = get_route (is_readonly_cmd cmd) pr.1)).map Prod.snd :=
        List.mem_map.mpr ⟨_, List.mem_filter.mpr ⟨hkey2, by simp⟩, rfl⟩
      have hvmem : 2 * t + 2 ∈ ((taggedP (is_readonly_cmd cmd) ps 1).filter
          (fun e => e.1 = get_route (is_readonly_cmd cmd) pr.1)).map Prod.snd :=
        List.mem_map.mpr ⟨_, List.mem_filter.mpr ⟨hval2, by simp⟩, rfl⟩
      have hnonempty : ((taggedP (is_readonly_cmd cmd) ps 1).filter
          (fun e => e.1 = get_route (is_readonly_cmd cmd) pr.1)).map Prod.snd ≠ [] :=
        List.ne_nil_of_mem hkmem
      have hfind : findRoute ((taggedP (is_readonly_cmd cmd) ps 1).foldl tstep [])
            (get_route (is_readonly_cmd cmd) pr.1)
          = some (((taggedP (is_readonly_cmd cmd) ps 1).filter
              (fun e => e.1 = get_route (is_readonly_cmd cmd) pr.1)).map Prod.snd) := by
        rw [findRoute_foldl_tstep,
          show findRoute [] (get_route (is_readonly_cmd cmd) pr.1) = none from rfl]
        simp only [extFind]
        rw [if_neg (by simpa using hnonempty)]
      exact ⟨_, mem_of_findRoute _ _ _ hfind, hkmem, hvmem⟩

/-- Claim C5: for every multi-key command, the splitter's output partitions
the scanned argument indices.  Key-only families (`DEL`/`EXISTS`/`UNLINK`/
`TOUCH`/`MGET`): with `N` distinct routes and `N ≥ 2`, the result is a
`MultiNode(MultiSlot)` plan of exactly `N` routes whose index lists are
jointly a permutation of all key argument indices `1 .. key count` (each
index exactly once), each list in increasing (original left-to-right)
order, each index grouped under its own key's route; with exactly one
distinct route (at least one key present) the result collapses to
`SingleNode(SpecificNode)` of that route.  Key/value family (`MSET`) on
complete pairs: the same holds with the plan partitioning all key and
value indices `1 .. 2·(pair count)`, each pair's key and value indices
landing in the group of the key's route. -/
theorem multi_key_split_plan :
    (∀ (verb cmd : List Nat) (keys : List (List Nat)), keys ≠ [] →
      (((keys.map (get_route (is_readonly_cmd cmd))).dedup.length = 1 →
         multi_shard (verb :: keys) cmd 1 false
           = some (.SingleNode (.SpecificNode
               (get_route (is_readonly_cmd cmd) (keys.headD []))))) ∧
       (2 ≤ (keys.map (get_route (is_readonly_cmd cmd))).dedup.length →
         ∃ plan, multi_shard (verb :: keys) cmd 1 false
             = some (.MultiNode (.MultiSlot plan)) ∧
           plan.length = (keys.map (get_route (is_readonly_cmd cmd))).dedup.length ∧
           ((plan.map Prod.snd).flatten).Perm (List.range' 1 keys.length) ∧
           (∀ p ∈ plan, List.Sorted (· < ·) p.2) ∧
           (∀ p ∈ plan, ∀ j ∈ p.2, ∃ key, keys[j - 1]? = some key ∧
              p.1 = get_route (is_readonly_cmd cmd) key)))) ∧
    (∀ (verb cmd : List Nat) (ps : List (List Nat × List Nat)), ps ≠ [] →
      (((ps.map (fun p => get_route (is_readonly_cmd cmd) p.1)).dedup.length = 1 →
         multi_shard (verb :: ps.flatMap (fun p => [p.1, p.2])) cmd 1 true
           = some (.SingleNode (.SpecificNode
               (get_route (is_readonly_cmd cmd) (ps.headD ([], [])).1)))) ∧
       (2 ≤ (ps.map (fun p => get_route (is_readonly_cmd cmd) p.1)).dedup.length →
         ∃ plan, multi_shard (verb :: ps.flatMap (fun p => [p.1, p.2])) cmd 1 true
             = some (.MultiNode (.MultiSlot plan)) ∧
           plan.length
             = (ps.map (fun p => get_route (is_readonly_cmd cmd) p.1)).dedup.length ∧
           ((plan.map Prod.snd).flatten).Perm (List.range' 1 (2 * ps.length)) ∧
           (∀ p ∈ plan, List.Sorted (· < ·) p.2) ∧
           (∀ t pr, ps[t]? = some pr → ∃ l,
              (get_route (is_readonly_cmd cmd) pr.1, l) ∈ plan ∧
              2 * t + 1 ∈ l ∧ 2 * t + 2 ∈ l)))) :=
  ⟨multi_shard_nv_spec, multi_shard_pairs_spec⟩

/-- Witness for `multi_key_split_plan`: the repository's own collapse test
`DEL foo lb foo rb bar lb foo rb baz` — three keys sharing the hash-tag
`foo` — has one distinct route and collapses to the single master of slot
12182, the slot of `"foo"`. -/
theorem multi_key_split_plan_witness :
    multi_shard
        [bytes "DEL", bytes "foo",
         123 :: bytes "foo" ++ 125 :: bytes "bar",
         123 :: bytes "foo" ++ 125 :: bytes "baz"]
        (bytes "DEL") 1 false
      = some (.SingleNode (.SpecificNode ⟨12182, .Master⟩)) := by
  have h := (multi_key_split_plan.1 (bytes "DEL") (bytes "DEL")
      [bytes "foo",
       123 :: bytes "foo" ++ 125 :: bytes "bar",
       123 :: bytes "foo" ++ 125 :: bytes "baz"]
      (by decide)).1 (by decide)
  rw [h]
  rfl
